import Mathlib

/-!
Verification of the substitution-distribution core of the phast repository.

The development shallowly embeds, over exact rationals (and reals where the
source uses the C library square root), the functions of
`src/util/consEntropy.c` and `src/lib/phylo/subst_distrib.c`.  External
collaborators that are declared but not defined in the repository
(`misc.c`, `prob_vector.c`, `prob_matrix.c`, `trees.c`) are either kept
abstract (passed as function parameters) or modelled from the specification;
each such definition says so in its doc comment.
-/

namespace Phast

/-! ### consEntropy.c: the checksum test (main, line 160) -/

/-- The checksum test of `consEntropy.c` `main` (line 160).  The source reads
`if (fabs(checksum1 - 1) > 1e-4 || fabs(checksum1 - 1) > 1e-4) die(...)`:
both disjuncts test `checksum1`; the second argument is received but never
tested.  Returns `true` exactly when the program dies. -/
def consEntropy_checksum_dies (checksum1 checksum2 : ℚ) : Bool :=
  decide (|checksum1 - 1| > 1/10000) || decide (|checksum1 - 1| > 1/10000)

/-- Modelled from the spec: the intended checksum test — "both `Σ_c P_cons(c)`
and `Σ_c P_noncons(c)` must be `1 ± 1e-4`" — dying when either sum is out of
tolerance.  Kept to compare with `consEntropy_checksum_dies`. -/
def consEntropy_checksum_spec_dies (checksum1 checksum2 : ℚ) : Bool :=
  decide (|checksum1 - 1| > 1/10000) || decide (|checksum2 - 1| > 1/10000)

/-! ### consEntropy.c: solve_newton (lines 48-71) -/

/-- The clamp applied to each Newton iterate in `solve_newton`
(consEntropy.c lines 61-62): `if (mu2 < 0) mu2 = 1e-3; else if (mu2 > 1)
mu2 = 1 - 1e-3;`.  Values inside `[0, 1]` pass through unchanged. -/
def solve_newton_clamp (mu2 : ℚ) : ℚ :=
  if mu2 < 0 then 1/1000 else if mu2 > 1 then 1 - 1/1000 else mu2

/-- The `while (TRUE)` loop of `solve_newton` (consEntropy.c lines 57-68).
`update` stands for the raw Newton step `μ ↦ μ - f(μ)/f'(μ)` of lines 58-60,
kept abstract because `f` and its derivative are transcendental.  Each pass
clamps the step with `solve_newton_clamp`, breaks with `some (1/mu2)` when
`|mu2 - mu1| < 1e-4`, and otherwise continues; `fuel` counts the remaining
non-converged passes the source allows before `die` (`none`).  The source
starts with `niter = 0` and dies when `niter` reaches 30, i.e. on the 30th
non-converged pass, so the entry point uses fuel 29. -/
def solve_newton_loop (update : ℚ → ℚ) : ℚ → ℕ → Option ℚ
  | mu1, 0 =>
    let mu2 := solve_newton_clamp (update mu1)
    if |mu2 - mu1| < 1/10000 then some (1/mu2) else none
  | mu1, fuel+1 =>
    let mu2 := solve_newton_clamp (update mu1)
    if |mu2 - mu1| < 1/10000 then some (1/mu2)
    else solve_newton_loop update mu2 fuel

/-- `solve_newton` (consEntropy.c lines 48-71): iterate from
`mu1 = 1/expected_len`, with at most 30 update passes. -/
def solve_newton (update : ℚ → ℚ) (expected_len : ℚ) : Option ℚ :=
  solve_newton_loop update (1/expected_len) 29

/-! ### The bit-decomposition loop shared by sub_p_value_many (lines 626-635)
and sub_p_value_joint_many (lines 807-816) -/

/-- Modelled from the spec: `log2_int` (misc.c, not under src/) returns
`⌊log2 n⌋`; the spec uses the powers `pow_p[i]` for `i = 0 … ⌊log2(maxlen)⌋`. -/
def log2_int (n : ℕ) : ℕ := Nat.log2 n

/-- Modelled from the spec: `int_pow` (misc.c, not under src/), integer
exponentiation, used as `int_pow(2, i) = 2^i`. -/
def int_pow (b e : ℕ) : ℕ := b ^ e

/-- The bit-decomposition loop of `sub_p_value_many` (subst_distrib.c lines
626-633) and `sub_p_value_joint_many` (lines 808-815): for `i = 0 … loglen`,
when bit `i` of `len` is set (`(len >> i) & 1`), append `pow_p[i]` to the
selected powers and add `int_pow(2, i)` to the checksum.  Returns the pair
(selected powers, checksum); the source then asserts `checksum == len`. -/
def gatherPows {α : Type} (pow_p : ℕ → α) (len : ℕ) : List α × ℕ :=
  (List.range (log2_int len + 1)).foldl
    (fun acc i =>
      if (len >>> i) &&& 1 = 1 then (acc.1 ++ [pow_p i], acc.2 + int_pow 2 i)
      else acc)
    ([], 0)

/-! ### subst_distrib.c: the jump process (lines 21-113) -/

/-- The two-index recurrence of `get_substs_and_bases_given_jumps`
(subst_distrib.c lines 32-51), as a function of the alphabet size, the jump
matrix `R` and the initialization vector (`π` for `A`, a point mass for
`B[a]`).  Value at `(i, n, j)` is `A[i]->data[n][j]`.  The source zeroes the
matrices, writes the `(0, 0)` entries, and for `j = 1 … jmax-1`,
`n = 0 … j` sets
`A[i]->data[n][j] = A[i]->data[n][j-1] * R[i][i]` plus, when `n > 0`,
`Σ_{k ≠ i} A[k]->data[n-1][j-1] * R[k][i]`; entries with `n > j` are never
written and stay 0. -/
def substTable (size : ℕ) (R : ℕ → ℕ → ℚ) (init : ℕ → ℚ) : ℕ → ℕ → ℕ → ℚ
  | i, n, 0 => if n = 0 then init i else 0
  | i, n, j+1 =>
    if n ≤ j+1 then
      substTable size R init i n j * R i i +
        (if 0 < n then
          ∑ k in (Finset.range size).erase i, substTable size R init k (n-1) j * R k i
        else 0)
    else 0

/-- `get_substs_and_bases_given_jumps` (subst_distrib.c lines 21-54): the
initialization is `π` when `condition_on` is negative (`none` here), else a
point mass at the base `condition_on`. -/
def get_substs_and_bases_given_jumps (size : ℕ) (R : ℕ → ℕ → ℚ)
    (backgd : ℕ → ℚ) (condition_on : Option ℕ) : ℕ → ℕ → ℕ → ℚ :=
  substTable size R
    (match condition_on with
     | none => backgd
     | some a => fun i => if i = a then 1 else 0)

/-- The tree model data `sub_define_jump_process` reads: alphabet size, rate
matrix `Q`, background frequencies `π`, and the branch lengths `dparent` of
the non-root nodes (the root, whose `branch_distrib` entry the source sets to
NULL, is omitted). -/
structure TreeModelE where
  size : ℕ
  rate_matrix : ℕ → ℕ → ℚ
  backgd_freqs : ℕ → ℚ
  branch_lens : List ℚ

/-- Modelled from the spec: `tr_total_len` (trees.c, not under src/) — the
tree provider's `total_branch_length`, the sum of all branch lengths. -/
def tr_total_len (mod : TreeModelE) : ℚ := mod.branch_lens.sum

/-- subst_distrib.c line 61: `jp->njumps_max = max(20, 15 * totlen);`.
`njumps_max` is a C `int` while `max(20, 15 * totlen)` is a `double`, so the
assignment truncates toward zero; the value is at least 20, so truncation is
the floor. -/
def njumps_max_of (totlen : ℚ) : ℤ := ⌊max 20 (15 * totlen)⌋

/-- subst_distrib.c lines 66-70: `lambda` starts at 0 and is raised to every
`-Q[j][j]` that exceeds it, giving `max(0, max_j -Q[j][j])`. -/
def lambda_of (mod : TreeModelE) : ℚ :=
  (List.range mod.size).foldl
    (fun l j => if -mod.rate_matrix j j > l then -mod.rate_matrix j j else l) 0

/-- subst_distrib.c lines 72-78: the jump matrix
`R[i][j] = Q[i][j]/λ + (i = j ? 1 : 0)`. -/
def R_of (mod : TreeModelE) : ℕ → ℕ → ℚ :=
  fun i j => mod.rate_matrix i j / lambda_of mod + (if i = j then 1 else 0)

/-- subst_distrib.c line 80: `jp->A`, the table with `π` initialization. -/
def A_of (mod : TreeModelE) : ℕ → ℕ → ℕ → ℚ :=
  get_substs_and_bases_given_jumps mod.size (R_of mod) mod.backgd_freqs none

/-- subst_distrib.c lines 83-86: `jp->B[a]`, the table conditioned on
starting base `a`. -/
def B_of (mod : TreeModelE) : ℕ → ℕ → ℕ → ℕ → ℚ :=
  fun a => get_substs_and_bases_given_jumps mod.size (R_of mod) mod.backgd_freqs (some a)

/-- subst_distrib.c lines 90-99: `jp->M->data[n][j] = Σ_i A[i]->data[n][j]`. -/
def M_of (mod : TreeModelE) : ℕ → ℕ → ℚ :=
  fun n j => ∑ i in Finset.range mod.size, A_of mod i n j

/-- A per-branch conditional table (`Matrix **D` of
`sub_distrib_branch_conditional`): `d a b n = D[a]->data[b][n]`, and the
column count `ncols` of each `D[a]` (the Poisson truncation length). -/
structure BranchTable where
  d : ℕ → ℕ → ℕ → ℚ
  ncols : ℕ

/-- Modelled from the spec: `pm_normalize` (prob_matrix.c, not under src/)
divides a probability matrix by its total sum ("All probability outputs are
normalized before return (divide by sum)"). -/
def pm_normalize (size ncols : ℕ) (D : ℕ → ℕ → ℚ) : ℕ → ℕ → ℚ :=
  fun b n => D b n / (∑ b' in Finset.range size, ∑ n' in Finset.range ncols, D b' n')

/-- `sub_distrib_branch_conditional` (subst_distrib.c lines 162-193), with
the Poisson provider (`pv_poisson`, prob_vector.c, not under src/) abstract:
`poisson r` is the Poisson(r) probability vector with its caller-visible
truncation.  `none` models the fatal `assert(jp->njumps_max > pois->size)`
(line 168).  `D[k]->data[i][n] = Σ_j B[k][i]->data[n][j] * pois[j]` over the
Poisson support, each `D[k]` then normalized by `pm_normalize`. -/
def sub_distrib_branch_conditional (size : ℕ) (lambda : ℚ) (njumps_max : ℤ)
    (B : ℕ → ℕ → ℕ → ℕ → ℚ) (poisson : ℚ → List ℚ) (t : ℚ) : Option BranchTable :=
  let pois := poisson (lambda * t)
  if (pois.length : ℤ) < njumps_max then
    some ⟨fun a => pm_normalize size pois.length
            (fun b n =>
              if n < pois.length then
                ∑ j in Finset.range pois.length, B a b n j * pois.getD j 0
              else 0),
          pois.length⟩
  else none

/-- The loop of subst_distrib.c lines 101-110 over the non-root nodes:
precompute every branch's conditional table; a fatal assert in any branch
(`none`) is fatal for the whole construction. -/
def build_branch_distribs (size : ℕ) (lambda : ℚ) (njumps_max : ℤ)
    (B : ℕ → ℕ → ℕ → ℕ → ℚ) (poisson : ℚ → List ℚ) : List ℚ → Option (List BranchTable)
  | [] => some []
  | t :: ts =>
    match sub_distrib_branch_conditional size lambda njumps_max B poisson t,
          build_branch_distribs size lambda njumps_max B poisson ts with
    | some d, some ds => some (d :: ds)
    | _, _ => none

/-- The `JumpProcess` bundle assembled by `sub_define_jump_process`. -/
structure JumpProcessE where
  njumps_max : ℤ
  lambda : ℚ
  R : ℕ → ℕ → ℚ
  A : ℕ → ℕ → ℕ → ℚ
  B : ℕ → ℕ → ℕ → ℕ → ℚ
  M : ℕ → ℕ → ℚ
  branch_distrib : List BranchTable

/-- `sub_define_jump_process` (subst_distrib.c lines 57-113).  The source
performs no validation of the model: it computes `njumps_max`, `λ`, `R`,
`A`, `B`, `M` and the per-branch tables and returns the bundle; the only
fatal path is the Poisson-truncation assert inside
`sub_distrib_branch_conditional`. -/
def sub_define_jump_process (poisson : ℚ → List ℚ) (mod : TreeModelE) :
    Option JumpProcessE :=
  (build_branch_distribs mod.size (lambda_of mod)
      (njumps_max_of (tr_total_len mod)) (B_of mod) poisson mod.branch_lens).map
    (fun bd =>
      ⟨njumps_max_of (tr_total_len mod), lambda_of mod, R_of mod, A_of mod,
       B_of mod, M_of mod, bd⟩)

/-- A one-base model whose rate matrix row does not sum to 0 (so the jump
matrix row `R[0]` sums to 0, not 1) and whose single branch length is
negative: `Q = [[-2]]`, `π = [1]`, branch lengths `[-1]`. -/
def badModelNeg : TreeModelE := ⟨1, fun _ _ => -2, fun _ => 1, [-1]⟩

/-- A model with a zero-size alphabet. -/
def badModelZero : TreeModelE := ⟨0, fun _ _ => 0, fun _ => 0, [1]⟩

/-- A Poisson provider stub with truncation length 1, used on concrete
models. -/
def pois0 : ℚ → List ℚ := fun _ => [1]

/-- A Jukes-Cantor-style two-base model: `Q = [[-1, 1], [1, -1]]`,
`π = [1/2, 1/2]`, no branches. -/
def jcModel : TreeModelE :=
  ⟨2, fun i j => if i = j then -1 else 1, fun _ => 1/2, []⟩

/-! ### subst_distrib.c: the scalar per-site tree DP (lines 205-300) -/

/-- One child-side inner double loop of the internal-node case of
`sub_posterior_distrib_site` (lines 261-265 for the left child, 267-271 for
the right): `Σ_b Σ_i L_child[b][i] * d[a][b][j-i]` with `i` clipped to
`[max(0, j - ncols + 1), min(j, m)]` (lines 253-256).  `m` is the child's
`maxsubst`, `ncols` the branch table's column count; the ℕ-subtraction
`j + 1 - ncols` equals the C `max(0, j - ncols + 1)`. -/
def node_child_sum (size m ncols : ℕ) (L : ℕ → ℕ → ℚ) (d : ℕ → ℕ → ℕ → ℚ)
    (a j : ℕ) : ℚ :=
  ∑ b in Finset.range size,
    ∑ i in Finset.Icc (j + 1 - ncols) (min j m), L b i * d a b (j - i)

/-- subst_distrib.c lines 247-248:
`maxsubst[v] = max(maxsubst[l] + ncols_l - 1, maxsubst[r] + ncols_r - 1)`. -/
def node_maxsubst (mL mR ncolsL ncolsR : ℕ) : ℕ :=
  max (mL + ncolsL - 1) (mR + ncolsR - 1)

/-- The internal-node table of `sub_posterior_distrib_site` (lines 250-276):
`L_v[a][n]` accumulates, over the splits `j = 0 … n`, the product of the left
child sum at `j` and the right child sum at `n - j`. -/
def node_L (size mL mR ncolsL ncolsR : ℕ) (Ll Lr : ℕ → ℕ → ℚ)
    (dL dR : ℕ → ℕ → ℕ → ℚ) (a n : ℕ) : ℚ :=
  ∑ j in Finset.range (n+1),
    node_child_sum size mL ncolsL Ll dL a j *
      node_child_sum size mR ncolsR Lr dR a (n - j)

/-- A rooted binary tree carrying, at each internal node, the two children's
branch conditional tables (`jp->branch_distrib[child->id]`).  A leaf carries
the observed alphabet index of its alignment character, `none` when the
character is a gap or missing (the source then sets `L[a][0] = 1` for every
`a`). -/
inductive DPTree where
  | leaf (obs : Option ℕ) : DPTree
  | node (lchild : DPTree) (dL : BranchTable) (rchild : DPTree) (dR : BranchTable) : DPTree

/-- The postorder DP of `sub_posterior_distrib_site` (lines 219-278): returns
the root's table `L[a][n]` and `maxsubst`.  Leaf (lines 227-240): `L[a][0]`
is 1 for every `a` when the character is missing or a gap, else 1 exactly at
the character's index; `maxsubst = 0`.  Internal node (lines 242-277): the
`node_L` accumulation; entries above `maxsubst[v]` are never written and
stay 0. -/
def subDP (size : ℕ) : DPTree → (ℕ → ℕ → ℚ) × ℕ
  | .leaf obs =>
    (fun a n =>
      if n = 0 then
        match obs with
        | none => 1
        | some c => if a = c then 1 else 0
      else 0, 0)
  | .node l dL r dR =>
    let SL := subDP size l
    let SR := subDP size r
    let m := node_maxsubst SL.2 SR.2 dL.ncols dR.ncols
    (fun a n =>
      if n ≤ m then node_L size SL.2 SR.2 dL.ncols dR.ncols SL.1 SR.1 dL.d dR.d a n
      else 0, m)

/-- subst_distrib.c lines 280-285: the unnormalized site posterior,
`retval->data[n] = Σ_a L_root[a][n] * π[a]` for `n = 0 … maxsubst[root]`. -/
def site_raw (size : ℕ) (backgd : ℕ → ℚ) (t : DPTree) : List ℚ :=
  (List.range ((subDP size t).2 + 1)).map
    (fun n => ∑ a in Finset.range size, (subDP size t).1 a n * backgd a)

/-- Modelled from the spec: `normalize_probs` (misc.c, not under src/)
divides a vector by its sum ("All probability outputs are normalized before
return (divide by sum)"). -/
def normalize_probs (v : List ℚ) : List ℚ := v.map (fun x => x / v.sum)

/-- Modelled from the spec: `pv_normalize` (prob_vector.c, not under src/)
divides a probability vector by its sum. -/
def pv_normalize (v : List ℚ) : List ℚ := v.map (fun x => x / v.sum)

/-- subst_distrib.c lines 289-291: trim trailing entries `< 1e-10`
(`for (n = maxsubst; n >= 0 && retval->data[n] < 1e-10; n--); retval->size = n+1;`). -/
def trim_small_tail (v : List ℚ) : List ℚ :=
  (v.reverse.dropWhile (fun x => decide (x < 1/10000000000))).reverse

/-- `sub_posterior_distrib_site` (lines 205-300) after the DP: normalize
(line 287), trim the tail (lines 289-291), normalize again (line 298). -/
def sub_posterior_distrib_site (size : ℕ) (backgd : ℕ → ℚ) (t : DPTree) : List ℚ :=
  pv_normalize (trim_small_tail (normalize_probs (site_raw size backgd t)))

/-- Every branch table in the tree has nonnegative entries (they are the
probabilities `p(b, n | a, t)` of the jump process). -/
def treeNonneg : DPTree → Prop
  | .leaf _ => True
  | .node l dL r dR =>
    (∀ a b n, 0 ≤ dL.d a b n) ∧ (∀ a b n, 0 ≤ dR.d a b n) ∧ treeNonneg l ∧ treeNonneg r

/-! ### subst_distrib.c: max_convolve_len (lines 678-696) -/

/-- The CLT size bound of `max_convolve_len` (subst_distrib.c lines 690-691):
`(l * mean_l + 6 * sd_l * sqrt(l)) * (l * mean_r + 6 * sd_r * sqrt(l))`. -/
noncomputable def clt_size (mean_l sd_l mean_r sd_r : ℝ) (l : ℕ) : ℝ :=
  ((l : ℝ) * mean_l + 6 * sd_l * Real.sqrt l) *
    ((l : ℝ) * mean_r + 6 * sd_r * Real.sqrt l)

/-- The initial estimate of `max_convolve_len` (lines 682-683):
`int l = sqrt(max_convolve_size / ((mean_l + 6*sd_l) * (mean_r + 6*sd_r)));`,
a nonnegative `double` truncated to `int`, i.e. the natural floor. -/
noncomputable def conv_init (max_convolve_size : ℤ)
    (mean_l sd_l mean_r sd_r : ℝ) : ℕ :=
  ⌊Real.sqrt ((max_convolve_size : ℝ) /
      ((mean_l + 6 * sd_l) * (mean_r + 6 * sd_r)))⌋₊

open scoped Classical in
/-- `max_convolve_len` (subst_distrib.c lines 678-696): the do-while loop
increments `l` from the initial estimate and exits at the first `l` with
`clt_size … l ≥ max_convolve_size` (the loop continues `while (maxsize <
max_convolve_size)`), returning `l - 1`.  The C loop would not terminate if
the bound were never reached, so the embedding takes the positivity
hypotheses under which the source is called (positive means, nonnegative
standard deviations, positive size budget) and derives the crossing point. -/
noncomputable def max_convolve_len (msize : ℤ) (mean_l sd_l mean_r sd_r : ℝ)
    (hml : 0 < mean_l) (hmr : 0 < mean_r) (hsl : 0 ≤ sd_l) (hsr : 0 ≤ sd_r)
    (hsz : 0 < msize) : ℕ :=
  have hex : ∃ l : ℕ, conv_init msize mean_l sd_l mean_r sd_r < l ∧
      (msize : ℝ) ≤ clt_size mean_l sd_l mean_r sd_r l := by
    obtain ⟨N, hN⟩ := exists_nat_ge ((msize : ℝ) / (mean_l * mean_r))
    refine ⟨max (conv_init msize mean_l sd_l mean_r sd_r + 1) (max 1 N),
      lt_of_lt_of_le (Nat.lt_succ_self _) (le_max_left _ _), ?_⟩
    set l := max (conv_init msize mean_l sd_l mean_r sd_r + 1) (max 1 N) with hl
    have h1 : 1 ≤ l := le_trans (le_max_left _ _) (le_max_right _ _)
    have hNl : N ≤ l := le_trans (le_max_right _ _) (le_max_right _ _)
    have hll : l ≤ l * l := Nat.le_mul_of_pos_left l h1
    have hmm : (0 : ℝ) < mean_l * mean_r := mul_pos hml hmr
    have step1 : (msize : ℝ) ≤ (N : ℝ) * (mean_l * mean_r) :=
      (div_le_iff₀ hmm).mp hN
    have step2 : (N : ℝ) * (mean_l * mean_r) ≤ ((l : ℝ) * (l : ℝ)) * (mean_l * mean_r) := by
      have : (N : ℝ) ≤ (l : ℝ) * (l : ℝ) := by
        exact_mod_cast le_trans hNl hll
      exact mul_le_mul_of_nonneg_right this (le_of_lt hmm)
    have step3 : ((l : ℝ) * (l : ℝ)) * (mean_l * mean_r) ≤
        clt_size mean_l sd_l mean_r sd_r l := by
      have hsq : (0 : ℝ) ≤ Real.sqrt l := Real.sqrt_nonneg _
      have hlr : (0 : ℝ) ≤ (l : ℝ) := Nat.cast_nonneg _
      have e1 : (l : ℝ) * mean_l ≤ (l : ℝ) * mean_l + 6 * sd_l * Real.sqrt l := by
        have : (0 : ℝ) ≤ 6 * sd_l * Real.sqrt l := by positivity
        linarith
      have e2 : (l : ℝ) * mean_r ≤ (l : ℝ) * mean_r + 6 * sd_r * Real.sqrt l := by
        have : (0 : ℝ) ≤ 6 * sd_r * Real.sqrt l := by positivity
        linarith
      have hbl : (0 : ℝ) ≤ (l : ℝ) * mean_r := by positivity
      have hbr : (0 : ℝ) ≤ (l : ℝ) * mean_l + 6 * sd_l * Real.sqrt l := by positivity
      calc ((l : ℝ) * (l : ℝ)) * (mean_l * mean_r)
          = ((l : ℝ) * mean_l) * ((l : ℝ) * mean_r) := by ring
        _ ≤ ((l : ℝ) * mean_l + 6 * sd_l * Real.sqrt l) *
              ((l : ℝ) * mean_r + 6 * sd_r * Real.sqrt l) :=
            mul_le_mul e1 e2 hbl hbr
        _ = clt_size mean_l sd_l mean_r sd_r l := rfl
    linarith
  Nat.find hex - 1

/-- `max_convolve_len` at `max_convolve_size = 256`, all means and standard
deviations 1. -/
noncomputable def mcl256 : ℕ :=
  max_convolve_len 256 1 1 1 1 (by norm_num) (by norm_num) (by norm_num)
    (by norm_num) (by norm_num)

/-- `max_convolve_len` at `max_convolve_size = 300`, all means and standard
deviations 1. -/
noncomputable def mcl300 : ℕ :=
  max_convolve_len 300 1 1 1 1 (by norm_num) (by norm_num) (by norm_num)
    (by norm_num) (by norm_num)

/-! ### subst_distrib.c: the bivariate p-value orchestrator, per-feature body
(sub_p_value_joint_many, lines 800-938) -/

/-- The tails of `pv_p_value` (prob_vector.h): `LOWER` is `P(X ≤ x)`,
`UPPER` is `P(X ≥ x)`. -/
inductive PSide where
  | lower : PSide
  | upper : PSide

/-- The distribution-algebra collaborators of `sub_p_value_joint_many`
(prob_vector.c, prob_matrix.c, misc.c and the C library `sqrt`, none under
src/), kept fully abstract: vectors are lists of rationals, matrices lists
of rows.  `sqrt_approx` stands for the C `sqrt`. -/
structure DistribOps where
  pv_convolve : List ℚ → ℕ → List ℚ
  pm_convolve_many_fast : List (List (List ℚ)) → ℤ → ℤ → List (List ℚ)
  pm_marg_x : List (List ℚ) → List ℚ
  pm_marg_y : List (List ℚ) → List ℚ
  pv_stats : List ℚ → ℚ × ℚ
  pv_confidence_interval : List ℚ → ℚ → ℚ × ℚ
  norm_confidence_interval : ℚ → ℚ → ℚ → ℚ × ℚ
  pm_x_given_tot : List (List ℚ) → ℤ → List ℚ
  pm_y_given_tot : List (List ℚ) → ℤ → List ℚ
  pm_x_given_tot_indep : ℤ → List ℚ → List ℚ → List ℚ
  pm_y_given_tot_indep : ℤ → List ℚ → List ℚ → List ℚ
  pv_p_value : List ℚ → ℤ → PSide → ℚ
  sqrt_approx : ℚ → ℚ

/-- The `p_value_joint_stats` record filled per feature (lines 849-933),
plus the C local `prior` (`prior_joint` here; NULL ↔ `none`), recorded so
that the taken branch — explicit joint convolution versus skipped — is
observable. -/
structure PValueJointStatsE where
  prior_mean_left : ℚ
  prior_var_left : ℚ
  prior_min_left : ℚ
  prior_max_left : ℚ
  prior_mean_right : ℚ
  prior_var_right : ℚ
  prior_min_right : ℚ
  prior_max_right : ℚ
  post_mean_left : ℚ
  post_mean_right : ℚ
  post_mean_tot : ℚ
  post_var_left : ℚ
  post_var_right : ℚ
  post_var_tot : ℚ
  post_min_left : ℤ
  post_max_left : ℤ
  post_min_right : ℤ
  post_max_right : ℤ
  post_min_tot : ℤ
  post_max_tot : ℤ
  cond_p_cons_left : ℚ
  cond_p_anti_cons_left : ℚ
  cond_p_cons_right : ℚ
  cond_p_anti_cons_right : ℚ
  cond_p_approx : Bool
  p_cons_left : ℚ
  p_anti_cons_left : ℚ
  p_cons_right : ℚ
  p_anti_cons_right : ℚ
  prior_joint : Option (List (List ℚ))

/-- The per-call environment of the feature loop of
`sub_p_value_joint_many`: the collaborators, the precomputed prior powers
`pow_p[i]` (lines 763-774), the per-site prior marginals and their
statistics (lines 745-752), `max_conv_len` (lines 754-759), the confidence
argument `ci`, the cached per-tuple posterior statistics (lines 777-798) and
the alignment's `tuple_idx` map. -/
structure JointEnv where
  ops : DistribOps
  pow_p : ℕ → List (List ℚ)
  prior_site_marg_left : List ℚ
  prior_site_marg_right : List ℚ
  prior_site_mean_left : ℚ
  prior_site_var_left : ℚ
  prior_site_mean_right : ℚ
  prior_site_var_right : ℚ
  max_conv_len : ℕ
  ci : ℚ
  post_mean_left : ℕ → ℚ
  post_mean_right : ℕ → ℚ
  post_mean_tot : ℕ → ℚ
  post_var_left : ℕ → ℚ
  post_var_right : ℕ → ℚ
  post_var_tot : ℕ → ℚ
  tuple_idx : ℕ → ℕ

/-- Lines 818-829: the truncation bounds passed to `pm_convolve_many_fast`.
For `len > 25` the CLT bounds
`ceil(len * mean + 6 * sqrt(len * var))` per side; otherwise
`pow_p[0]->nrows * len` and `pow_p[0]->ncols * len`. -/
def joint_bounds (env : JointEnv) (len : ℕ) : ℤ × ℤ :=
  if 25 < len then
    (⌈(len : ℚ) * env.prior_site_mean_left +
        6 * env.ops.sqrt_approx ((len : ℚ) * env.prior_site_var_left)⌉,
     ⌈(len : ℚ) * env.prior_site_mean_right +
        6 * env.ops.sqrt_approx ((len : ℚ) * env.prior_site_var_right)⌉)
  else
    (((env.pow_p 0).length * len : ℕ), (((env.pow_p 0).headD []).length * len : ℕ))

/-- Lines 806-847: the joint prior and its marginals.  For
`len <= max_conv_len` (line 806) the powers for the set bits of `len` are
gathered (lines 808-816; the `assert(checksum == len)` is the `none` case),
convolved by `pm_convolve_many_fast` (line 832), and the marginals taken from
the joint (lines 837-838).  Otherwise (lines 840-847) `prior` stays NULL and
the marginals are the `len`-fold 1-D convolutions of the per-site
marginals. -/
def joint_prior_branch (env : JointEnv) (len : ℕ) :
    Option (Option (List (List ℚ)) × List ℚ × List ℚ) :=
  if len ≤ env.max_conv_len then
    let gp := gatherPows env.pow_p len
    if gp.2 = len then
      let b := joint_bounds env len
      let prior := env.ops.pm_convolve_many_fast gp.1 b.1 b.2
      some (some prior, env.ops.pm_marg_x prior, env.ops.pm_marg_y prior)
    else none
  else
    some (none, env.ops.pv_convolve env.prior_site_marg_left len,
          env.ops.pv_convolve env.prior_site_marg_right len)

/-- Lines 870-885: the posterior interval for one side — the Gaussian
interval `norm_confidence_interval(mean, sqrt(var), ci)` when `ci != -1`,
else the degenerate interval at the mean. -/
def joint_post_lims (ops : DistribOps) (ci mean var : ℚ) : ℚ × ℚ :=
  if ci ≠ -1 then ops.norm_confidence_interval mean (ops.sqrt_approx var) ci
  else (mean, mean)

/-- The feature-loop body of `sub_p_value_joint_many` (lines 801-937) for one
feature `[fstart, fend]` (1-based, inclusive): feature length (line 803),
prior branch (806-847), prior marginal statistics and confidence intervals
(849-856), posterior moment sums over the feature's columns (858-868),
posterior intervals and their integer floors/ceilings (870-892), conditional
p-values through the joint prior when it exists and through the independence
formulas otherwise (894-921), the `cond_p_approx` flag (923), and the four
marginal p-values (925-933). -/
def sub_p_value_joint_feature (env : JointEnv) (fstart fend : ℕ) :
    Option PValueJointStatsE :=
  let len := fend - fstart + 1
  match joint_prior_branch env len with
  | none => none
  | some (prior, prior_marg_left, prior_marg_right) =>
    let sl := env.ops.pv_stats prior_marg_left
    let cil := env.ops.pv_confidence_interval prior_marg_left (95/100)
    let sr := env.ops.pv_stats prior_marg_right
    let cir := env.ops.pv_confidence_interval prior_marg_right (95/100)
    let idxs := List.range' (fstart - 1) len
    let pml := (idxs.map (fun i => env.post_mean_left (env.tuple_idx i))).sum
    let pmr := (idxs.map (fun i => env.post_mean_right (env.tuple_idx i))).sum
    let pmt := (idxs.map (fun i => env.post_mean_tot (env.tuple_idx i))).sum
    let pvl := (idxs.map (fun i => env.post_var_left (env.tuple_idx i))).sum
    let pvr := (idxs.map (fun i => env.post_var_right (env.tuple_idx i))).sum
    let pvt := (idxs.map (fun i => env.post_var_tot (env.tuple_idx i))).sum
    let liml := joint_post_lims env.ops env.ci pml pvl
    let limr := joint_post_lims env.ops env.ci pmr pvr
    let limt := joint_post_lims env.ops env.ci pmt pvt
    let pminl : ℤ := ⌊liml.1⌋
    let pmaxl : ℤ := ⌈liml.2⌉
    let pminr : ℤ := ⌊limr.1⌋
    let pmaxr : ℤ := ⌈limr.2⌉
    let pmint : ℤ := ⌊limt.1⌋
    let pmaxt : ℤ := ⌈limt.2⌉
    let cond1 := match prior with
      | some pr => env.ops.pm_x_given_tot pr pmint
      | none => env.ops.pm_x_given_tot_indep pmint prior_marg_left prior_marg_right
    let cond2 := match prior with
      | some pr => env.ops.pm_x_given_tot pr pmaxt
      | none => env.ops.pm_x_given_tot_indep pmaxt prior_marg_left prior_marg_right
    let cond3 := match prior with
      | some pr => env.ops.pm_y_given_tot pr pmint
      | none => env.ops.pm_y_given_tot_indep pmint prior_marg_left prior_marg_right
    let cond4 := match prior with
      | some pr => env.ops.pm_y_given_tot pr pmaxt
      | none => env.ops.pm_y_given_tot_indep pmaxt prior_marg_left prior_marg_right
    some
      { prior_mean_left := sl.1
        prior_var_left := sl.2
        prior_min_left := cil.1
        prior_max_left := cil.2
        prior_mean_right := sr.1
        prior_var_right := sr.2
        prior_min_right := cir.1
        prior_max_right := cir.2
        post_mean_left := pml
        post_mean_right := pmr
        post_mean_tot := pmt
        post_var_left := pvl
        post_var_right := pvr
        post_var_tot := pvt
        post_min_left := pminl
        post_max_left := pmaxl
        post_min_right := pminr
        post_max_right := pmaxr
        post_min_tot := pmint
        post_max_tot := pmaxt
        cond_p_cons_left := env.ops.pv_p_value cond1 pmaxl PSide.lower
        cond_p_anti_cons_left := env.ops.pv_p_value cond2 pminl PSide.upper
        cond_p_cons_right := env.ops.pv_p_value cond3 pmaxr PSide.lower
        cond_p_anti_cons_right := env.ops.pv_p_value cond4 pminr PSide.upper
        cond_p_approx := prior.isNone
        p_cons_left := env.ops.pv_p_value prior_marg_left pmaxl PSide.lower
        p_anti_cons_left := env.ops.pv_p_value prior_marg_left pminl PSide.upper
        p_cons_right := env.ops.pv_p_value prior_marg_right pmaxr PSide.lower
        p_anti_cons_right := env.ops.pv_p_value prior_marg_right pminr PSide.upper
        prior_joint := prior }

/-- Concrete tables with support `{0}` (used to instantiate theorems with
hypotheses on concrete inputs). -/
def wTab : ℕ → ℕ → ℚ := fun _ i => if i = 0 then 1 else 0

/-- Concrete branch-distribution table with a single column. -/
def wDist : ℕ → ℕ → ℕ → ℚ := fun _ _ m => if m = 0 then 1 else 0

/-- Trivial concrete collaborators (constant stubs), used to instantiate the
orchestrator theorems on concrete inputs. -/
def trivOps : DistribOps :=
  ⟨fun v _ => v, fun _ _ _ => [[1]], fun _ => [1], fun _ => [1], fun _ => (0, 0),
   fun _ _ => (0, 0), fun _ _ _ => (0, 0), fun _ _ => [1], fun _ _ => [1],
   fun _ _ _ => [1], fun _ _ _ => [1], fun _ _ _ => 1/2, fun q => q⟩

/-- A concrete orchestrator environment with `max_conv_len = 3`. -/
def trivEnv : JointEnv :=
  ⟨trivOps, fun _ => [[1]], [1], [1], 1, 0, 1, 0, 3, -1,
   fun _ => 0, fun _ => 0, fun _ => 0, fun _ => 0, fun _ => 0, fun _ => 0,
   fun i => i⟩

/-! ## Theorems -/

/-- C1: when relative entropy is computed from two model files, the spec
requires the tool to die whenever either probability sum is outside
`1 ± 1e-4`.  The source (consEntropy.c line 160) tests `checksum1` in both
disjuncts of the `if` and never tests `checksum2`: at `checksum1 = 1`,
`checksum2 = 2` the second sum is off by 1, the spec-intended test dies, yet
the code's test passes. -/
theorem C1_checksum_code_eval :
    consEntropy_checksum_dies 1 2 = false ∧
    consEntropy_checksum_spec_dies 1 2 = true ∧
    |(2 : ℚ) - 1| > 1/10000 := by
  refine ⟨?_, ?_, by norm_num⟩
  · norm_num [consEntropy_checksum_dies]
  · norm_num [consEntropy_checksum_spec_dies]

/-- C2 counterexample: the claim says every iterate produced by an update
step lies in `[1e-3, 1 - 1e-3]`.  With a raw Newton update returning `1e-5`
(inside `[0, 1]`, so untouched by the clamp of lines 61-62), the iterate is
`1e-5 < 1e-3`, and the loop even converges to it, returning
`ω = 1/μ = 100000 > 1/1e-3`. -/
theorem C2_clamp_counterexample :
    solve_newton_clamp (1/100000) = 1/100000 ∧
    ¬ ((1:ℚ)/1000 ≤ solve_newton_clamp (1/100000)) ∧
    solve_newton_loop (fun _ => (1:ℚ)/100000) (1/2) 29 = some 100000 := by
  have hc : solve_newton_clamp (1/100000) = 1/100000 := by norm_num [solve_newton_clamp]
  refine ⟨hc, by norm_num [solve_newton_clamp], ?_⟩
  rw [show (29:ℕ) = 28+1 from rfl]
  simp only [solve_newton_loop]
  rw [hc]
  have h1 : ¬(|(1:ℚ)/100000 - 1/2| < 1/10000) := by
    rw [abs_of_neg (by norm_num)]
    norm_num
  have h2 : |(1:ℚ)/100000 - 1/100000| < 1/10000 := by
    rw [sub_self, abs_zero]
    norm_num
  rw [if_neg h1, if_pos h2]
  norm_num

/-- C2 (amended): an iterate is set to `1e-3` only when the raw update is
negative and to `1 - 1e-3` only when it exceeds 1, so every iterate lies in
`[0, 1]` (not necessarily in `[1e-3, 1 - 1e-3]`); the loop terminates with
`1/μ` as soon as `|Δμ| < 1e-4`, and fails fatally (`none`) when no pass
converges within the allowed iterations. -/
theorem C2_newton_amended (update : ℚ → ℚ) (mu : ℚ) (fuel : ℕ) :
    (0 ≤ solve_newton_clamp (update mu) ∧ solve_newton_clamp (update mu) ≤ 1) ∧
    (update mu < 0 → solve_newton_clamp (update mu) = 1/1000) ∧
    (1 < update mu → solve_newton_clamp (update mu) = 1 - 1/1000) ∧
    (|solve_newton_clamp (update mu) - mu| < 1/10000 →
      solve_newton_loop update mu fuel = some (1 / solve_newton_clamp (update mu))) ∧
    ((∀ x : ℚ, 1/10000 ≤ |solve_newton_clamp (update x) - x|) →
      solve_newton_loop update mu fuel = none) := by
  refine ⟨?_, ?_, ?_, ?_, ?_⟩
  · unfold solve_newton_clamp
    split_ifs with h1 h2 <;> constructor <;> linarith
  · intro h
    simp [solve_newton_clamp, h]
  · intro h
    unfold solve_newton_clamp
    rw [if_neg (by linarith), if_pos h]
  · intro h
    cases fuel with
    | zero => simp only [solve_newton_loop]; rw [if_pos h]
    | succ n => simp only [solve_newton_loop]; rw [if_pos h]
  · intro hdiv
    induction fuel generalizing mu with
    | zero =>
      simp only [solve_newton_loop]
      rw [if_neg (not_lt.mpr (hdiv mu))]
    | succ n ih =>
      simp only [solve_newton_loop]
      rw [if_neg (not_lt.mpr (hdiv mu))]
      exact ih _

/-- C2 witness: concrete runs of the loop — a converging update (constant 2,
clamped to `1 - 1e-3`, started at its fixed point) returns `some (1000/999)`;
an update whose clamped step is always at least `1e-4` away dies. -/
theorem C2_newton_amended_witness :
    solve_newton_loop (fun _ => (2:ℚ)) (1 - 1/1000) 29 = some (1000/999) ∧
    solve_newton_loop (fun x => if x < 1/2 then (2:ℚ) else -1) (1/2) 29 = none := by
  constructor
  · have h := (C2_newton_amended (fun _ => (2:ℚ)) (1 - 1/1000) 29).2.2.2.1
    rw [h (by norm_num [solve_newton_clamp])]
    norm_num [solve_newton_clamp]
  · apply (C2_newton_amended (fun x => if x < 1/2 then (2:ℚ) else -1) (1/2) 29).2.2.2.2
    intro x
    by_cases hx : x < 1/2
    · rw [if_pos hx]
      rw [show solve_newton_clamp 2 = 1 - 1/1000 by norm_num [solve_newton_clamp]]
      rw [abs_of_nonneg (by linarith)]
      linarith
    · rw [if_neg hx]
      rw [show solve_newton_clamp (-1) = 1/1000 by norm_num [solve_newton_clamp]]
      rw [abs_of_nonpos (by linarith [not_lt.mp hx])]
      push_neg at hx
      linarith

/-- C4 counterexample: at total branch length `3/2`, `15 · totlen = 22.5`;
the source stores the C `int` truncation `22`, while the claimed
`max(20, ceil(15 · totlen))` is `23`. -/
theorem C4_ceil_counterexample :
    njumps_max_of (3/2) = 22 ∧ max 20 ⌈(15 : ℚ) * (3/2)⌉ = 23 := by
  constructor
  · unfold njumps_max_of
    rw [max_eq_right (by norm_num), show (15 : ℚ) * (3/2) = 45/2 by norm_num,
      Int.floor_eq_iff]
    norm_num
  · have h23 : ⌈(15 : ℚ) * (3/2)⌉ = 23 := by
      rw [show (15 : ℚ) * (3/2) = 45/2 by norm_num, Int.ceil_eq_iff]
      norm_num
    rw [h23]
    norm_num

/-- C4 (amended): the stored truncation equals `max(20, ⌊15 · totlen⌋)` — the
floor, not the ceiling, of `15 · totlen` when the latter exceeds 20 (the C
`int` assignment truncates the `double`) — both for the formula of line 61
and for the `njumps_max` field of every successfully built `JumpProcess`. -/
theorem C4_njumps_amended :
    (∀ t : ℚ, njumps_max_of t = max 20 ⌊15 * t⌋) ∧
    (∀ (poisson : ℚ → List ℚ) (mod : TreeModelE) (jp : JumpProcessE),
      sub_define_jump_process poisson mod = some jp →
      jp.njumps_max = max 20 ⌊15 * tr_total_len mod⌋) := by
  have hmain : ∀ t : ℚ, njumps_max_of t = max 20 ⌊15 * t⌋ := by
    intro t
    unfold njumps_max_of
    rcases le_total (15 * t) 20 with h | h
    · rw [max_eq_left h, max_eq_left (le_trans (Int.floor_le_floor h) (by norm_num))]
      norm_num
    · rw [max_eq_right h, max_eq_right]
      calc (20:ℤ) = ⌊(20:ℚ)⌋ := by norm_num
        _ ≤ ⌊15 * t⌋ := Int.floor_le_floor h
  refine ⟨hmain, ?_⟩
  intro poisson mod jp h
  unfold sub_define_jump_process at h
  obtain ⟨bd, _, hjp⟩ := Option.map_eq_some'.mp h
  rw [← hjp]
  exact hmain _

/-- The bit-gathering foldl, with the accumulator generalized: it appends the
images of the set-bit indices and adds their powers of two. -/
theorem gatherPows_foldl {α : Type} (pow_p : ℕ → α) (len : ℕ) :
    ∀ (l : List ℕ) (a : List α) (s : ℕ),
      l.foldl
          (fun acc i =>
            if (len >>> i) &&& 1 = 1 then (acc.1 ++ [pow_p i], acc.2 + int_pow 2 i)
            else acc)
          (a, s) =
        (a ++ (l.filter (fun i => (len >>> i) &&& 1 = 1)).map pow_p,
         s + ((l.filter (fun i => (len >>> i) &&& 1 = 1)).map (fun i => 2 ^ i)).sum) := by
  intro l
  induction l with
  | nil => intro a s; simp
  | cons x xs ih =>
    intro a s
    by_cases hx : (len >>> x) &&& 1 = 1
    · simp only [List.foldl_cons, List.filter_cons, hx, decide_True, if_true,
        decide_eq_true_eq, List.map_cons, List.sum_cons]
      rw [ih]
      simp [int_pow, add_comm, add_assoc, add_left_comm]
    · simp only [List.foldl_cons, List.filter_cons, hx, decide_False, if_false,
        decide_eq_true_eq]
      rw [ih]
      simp

/-- The selected powers of two of the low `k` bits of `n` sum to `n mod 2^k`. -/
theorem bit_filter_sum (n : ℕ) :
    ∀ k : ℕ,
      (((List.range k).filter (fun i => (n >>> i) &&& 1 = 1)).map
          (fun i => 2 ^ i)).sum = n % 2 ^ k := by
  intro k
  induction k with
  | zero => simp [Nat.mod_one]
  | succ k ih =>
    rw [List.range_succ, List.filter_append, List.map_append, List.sum_append, ih]
    by_cases hb : (n >>> k) &&& 1 = 1
    · have hdiv : n / 2 ^ k % 2 = 1 := by
        rwa [Nat.shiftRight_eq_div_pow, Nat.and_one_is_mod] at hb
      simp only [List.filter_cons, List.filter_nil, hb, decide_True, if_true,
        List.map_cons, List.map_nil, List.sum_cons, List.sum_nil]
      rw [Nat.mod_pow_succ, hdiv]
      omega
    · have hdiv : n / 2 ^ k % 2 = 0 := by
        rw [Nat.shiftRight_eq_div_pow, Nat.and_one_is_mod] at hb
        omega
      simp only [List.filter_cons, List.filter_nil, hb, decide_False, if_false]
      rw [Nat.mod_pow_succ, hdiv]
      simp

/-- The checksum accumulated by the bit-decomposition loop equals the
feature length (every set bit of `len` lies at or below `⌊log2 len⌋`). -/
theorem gatherPows_checksum {α : Type} (pow_p : ℕ → α) (len : ℕ) :
    (gatherPows pow_p len).2 = len := by
  unfold gatherPows
  rw [gatherPows_foldl]
  show 0 + _ = len
  rw [zero_add, bit_filter_sum]
  apply Nat.mod_eq_of_lt
  have h : len < 2 ^ (Nat.log2 len + 1) := Nat.lt_log2_self
  simpa [log2_int] using h

/-- The loop selects exactly the powers at the set bits of `len`. -/
theorem gatherPows_sel {α : Type} (pow_p : ℕ → α) (len : ℕ) :
    (gatherPows pow_p len).1 =
      ((List.range (log2_int len + 1)).filter
          (fun i => (len >>> i) &&& 1 = 1)).map pow_p := by
  unfold gatherPows
  rw [gatherPows_foldl]
  simp

/-- C10: for every feature length `len ≥ 1`, the bit-decomposition loop of
`sub_p_value_many` (lines 626-633) and `sub_p_value_joint_many` (lines
808-815) selects exactly the precomputed prior powers at the set bits of
`len`, and its checksum `Σ 2^i` over those bits equals `len`, so the
`assert(checksum == len)` of lines 634 and 816 never fails. -/
theorem C10_bit_checksum {α : Type} (pow_p : ℕ → α) (len : ℕ) (hlen : 1 ≤ len) :
    (gatherPows pow_p len).2 = len ∧
    (gatherPows pow_p len).1 =
      ((List.range (log2_int len + 1)).filter
          (fun i => (len >>> i) &&& 1 = 1)).map pow_p :=
  ⟨gatherPows_checksum pow_p len, gatherPows_sel pow_p len⟩

/-- C10 witness: at `len = 6 = 2 + 4` the loop selects the powers at bit
indices 1 and 2 and the checksum is 6. -/
theorem C10_bit_checksum_witness :
    (gatherPows (fun i : ℕ => i) 6).2 = 6 ∧
    (gatherPows (fun i : ℕ => i) 6).1 =
      ((List.range (log2_int 6 + 1)).filter
          (fun i => (6 >>> i) &&& 1 = 1)).map (fun i : ℕ => i) :=
  C10_bit_checksum (fun i : ℕ => i) 6 (by norm_num)

/-- The table value at `(i, 0, 0)` is the initialization vector. -/
theorem substTable_init (size : ℕ) (R : ℕ → ℕ → ℚ) (init : ℕ → ℚ) (i : ℕ) :
    substTable size R init i 0 0 = init i := by
  simp [substTable]

/-- Entries with `n > j` are never written by the recurrence and stay 0. -/
theorem substTable_vanish (size : ℕ) (R : ℕ → ℕ → ℚ) (init : ℕ → ℚ)
    (i n j : ℕ) (h : j < n) : substTable size R init i n j = 0 := by
  cases j with
  | zero => simp only [substTable]; rw [if_neg (by omega)]
  | succ j' => simp only [substTable]; rw [if_neg (by omega)]

/-- The two-index recurrence, as the source writes it for
`j = 1 … jmax-1`, `n = 0 … j`. -/
theorem substTable_rec (size : ℕ) (R : ℕ → ℕ → ℚ) (init : ℕ → ℚ)
    (i n j : ℕ) (h1 : 1 ≤ j) (h2 : n ≤ j) :
    substTable size R init i n j =
      substTable size R init i n (j-1) * R i i +
        (if 0 < n then
          ∑ k in (Finset.range size).erase i,
            substTable size R init k (n-1) (j-1) * R k i
        else 0) := by
  cases j with
  | zero => omega
  | succ j' =>
    conv_lhs => rw [substTable]
    rw [if_pos h2]
    simp only [Nat.add_sub_cancel]

/-- C7: for every successfully built `JumpProcess`, the table `A` has
`A[i][0][0] = π[i]` and satisfies
`A[i][n][j] = A[i][n][j-1]·R[i][i] + [n>0]·Σ_{k≠i} A[k][n-1][j-1]·R[k][i]`
for `1 ≤ j`, `n ≤ j`, with all entries at `n > j` zero; and each `B[a]`
satisfies the same recurrence with initialization `B[a][a][0][0] = 1` and
all other entries zero. -/
theorem C7_jump_recurrence (poisson : ℚ → List ℚ) (mod : TreeModelE)
    (jp : JumpProcessE) (h : sub_define_jump_process poisson mod = some jp) :
    (∀ i, jp.A i 0 0 = mod.backgd_freqs i) ∧
    (∀ i n j, 1 ≤ j → n ≤ j →
      jp.A i n j = jp.A i n (j-1) * jp.R i i +
        (if 0 < n then
          ∑ k in (Finset.range mod.size).erase i, jp.A k (n-1) (j-1) * jp.R k i
        else 0)) ∧
    (∀ i n j, j < n → jp.A i n j = 0) ∧
    (∀ a, jp.B a a 0 0 = 1) ∧
    (∀ a i, i ≠ a → jp.B a i 0 0 = 0) ∧
    (∀ a i n j, j < n → jp.B a i n j = 0) ∧
    (∀ a i n j, 1 ≤ j → n ≤ j →
      jp.B a i n j = jp.B a i n (j-1) * jp.R i i +
        (if 0 < n then
          ∑ k in (Finset.range mod.size).erase i, jp.B a k (n-1) (j-1) * jp.R k i
        else 0)) := by
  unfold sub_define_jump_process at h
  obtain ⟨bd, _, hjp⟩ := Option.map_eq_some'.mp h
  subst hjp
  refine ⟨?_, ?_, ?_, ?_, ?_, ?_, ?_⟩
  · intro i
    show substTable mod.size (R_of mod) mod.backgd_freqs i 0 0 = mod.backgd_freqs i
    exact substTable_init _ _ _ i
  · intro i n j h1 h2
    show substTable mod.size (R_of mod) mod.backgd_freqs i n j = _
    exact substTable_rec _ _ _ i n j h1 h2
  · intro i n j hlt
    show substTable mod.size (R_of mod) mod.backgd_freqs i n j = 0
    exact substTable_vanish _ _ _ i n j hlt
  · intro a
    show substTable mod.size (R_of mod) (fun i => if i = a then 1 else 0) a 0 0 = 1
    rw [substTable_init]
    simp
  · intro a i hne
    show substTable mod.size (R_of mod) (fun i => if i = a then 1 else 0) i 0 0 = 0
    rw [substTable_init]
    simp [hne]
  · intro a i n j hlt
    show substTable mod.size (R_of mod) (fun i => if i = a then 1 else 0) i n j = 0
    exact substTable_vanish _ _ _ i n j hlt
  · intro a i n j h1 h2
    show substTable mod.size (R_of mod) (fun i => if i = a then 1 else 0) i n j = _
    exact substTable_rec _ _ _ i n j h1 h2

/-- C7 witness: on the concrete two-base Jukes-Cantor model the built
process has `A[0][0][0] = π[0] = 1/2`. -/
theorem C7_jump_recurrence_witness :
    (sub_define_jump_process pois0 jcModel).map (fun jp => jp.A 0 0 0) =
      some (1/2) := by
  have h : sub_define_jump_process pois0 jcModel =
      some ⟨njumps_max_of (tr_total_len jcModel), lambda_of jcModel,
            R_of jcModel, A_of jcModel, B_of jcModel, M_of jcModel, []⟩ := rfl
  rw [h, Option.map_some']
  have h2 := (C7_jump_recurrence pois0 jcModel _ h).1 0
  simp only at h2 ⊢
  rw [h2]
  norm_num [jcModel]

/-- Whether the branch-distribution loop succeeds depends only on each
branch's Poisson truncation length being below `njumps_max`. -/
theorem build_branch_distribs_isSome (size : ℕ) (lambda : ℚ) (njumps_max : ℤ)
    (B : ℕ → ℕ → ℕ → ℕ → ℚ) (poisson : ℚ → List ℚ) :
    ∀ ts : List ℚ,
      (build_branch_distribs size lambda njumps_max B poisson ts).isSome = true ↔
        ∀ t ∈ ts, ((poisson (lambda * t)).length : ℤ) < njumps_max := by
  intro ts
  induction ts with
  | nil => simp [build_branch_distribs]
  | cons t ts ih =>
    by_cases hc : ((poisson (lambda * t)).length : ℤ) < njumps_max
    · cases hrec : build_branch_distribs size lambda njumps_max B poisson ts with
      | none =>
        have h2 : ¬ ∀ t' ∈ ts, ((poisson (lambda * t')).length : ℤ) < njumps_max := by
          rw [← ih, hrec]
          simp
        simp only [build_branch_distribs, sub_distrib_branch_conditional,
          if_pos hc, hrec]
        constructor
        · intro hfalse
          simp at hfalse
        · intro hall
          exact absurd (fun t' ht' => hall t' (List.mem_cons_of_mem _ ht')) h2
      | some ds =>
        have h2 : ∀ t' ∈ ts, ((poisson (lambda * t')).length : ℤ) < njumps_max := by
          rw [← ih, hrec]
          simp
        simp only [build_branch_distribs, sub_distrib_branch_conditional,
          if_pos hc, hrec]
        constructor
        · intro _ t' ht'
          rcases List.mem_cons.mp ht' with rfl | hmem
          · exact hc
          · exact h2 t' hmem
        · intro _
          simp
    · simp only [build_branch_distribs, sub_distrib_branch_conditional, if_neg hc]
      constructor
      · intro hfalse
        simp at hfalse
      · intro hall
        exact absurd (hall t (List.mem_cons_self t ts)) hc

/-- C3 (amended): `sub_define_jump_process` performs no validation of the
model — negative branch lengths, a zero-size alphabet, or a non-stochastic
jump matrix do not prevent it from returning a `JumpProcess`.  Construction
succeeds exactly when every branch passes the Poisson-truncation assert
`pois->size < njumps_max`. -/
theorem C3_no_validation (poisson : ℚ → List ℚ) (mod : TreeModelE) :
    (sub_define_jump_process poisson mod).isSome = true ↔
      ∀ t ∈ mod.branch_lens,
        ((poisson (lambda_of mod * t)).length : ℤ) <
          njumps_max_of (tr_total_len mod) := by
  unfold sub_define_jump_process
  rw [Option.isSome_map']
  exact build_branch_distribs_isSome _ _ _ _ _ _

/-- C3 counterexample: building a `JumpProcess` from a model with a
zero-size alphabet succeeds, and building from a model whose single branch
length is negative and whose jump-matrix row sums to 0 (off from 1 by 1,
far beyond the 1e-9 tolerance) also succeeds — no fatal configuration error
occurs. -/
theorem C3_counterexample :
    (sub_define_jump_process pois0 badModelZero).isSome = true ∧
    (sub_define_jump_process pois0 badModelNeg).map
        (fun jp => ∑ j in Finset.range badModelNeg.size, jp.R 0 j) = some 0 ∧
    badModelNeg.branch_lens = [-1] ∧
    badModelZero.size = 0 ∧
    ¬ (|(0 : ℚ) - 1| ≤ 1/1000000000) := by
  have hz20 : njumps_max_of (tr_total_len badModelZero) = 20 := by
    have : tr_total_len badModelZero = 1 := by
      simp [tr_total_len, badModelZero]
    rw [this]
    unfold njumps_max_of
    rw [max_eq_left (by norm_num), Int.floor_eq_iff]
    norm_num
  have hn20 : njumps_max_of (tr_total_len badModelNeg) = 20 := by
    have : tr_total_len badModelNeg = -1 := by
      simp [tr_total_len, badModelNeg]
    rw [this]
    unfold njumps_max_of
    rw [max_eq_left (by norm_num), Int.floor_eq_iff]
    norm_num
  have hlam : lambda_of badModelNeg = 2 := by
    show (List.range 1).foldl _ 0 = 2
    rw [show List.range 1 = [0] from rfl]
    norm_num [badModelNeg]
  refine ⟨?_, ?_, rfl, rfl, by norm_num⟩
  · unfold sub_define_jump_process
    rw [Option.isSome_map']
    rw [build_branch_distribs_isSome]
    intro t ht
    rw [hz20]
    simp [pois0]
  · unfold sub_define_jump_process
    rw [hn20, Option.map_map]
    simp only [build_branch_distribs, sub_distrib_branch_conditional, pois0]
    rw [if_pos (by norm_num)]
    simp only [Option.map_some', Function.comp]
    rw [show badModelNeg.size = 1 from rfl, Finset.sum_range_one]
    simp only [R_of]
    rw [hlam]
    norm_num [badModelNeg]

/-- Clipping the inner index range is exact: when the child table vanishes
above its `maxsubst` and the branch table vanishes at or beyond its column
count, the clipped sum equals the full sum over `i = 0 … j`. -/
theorem node_child_sum_unclipped (size m ncols : ℕ) (L : ℕ → ℕ → ℚ)
    (d : ℕ → ℕ → ℕ → ℚ)
    (hL : ∀ b i, m < i → L b i = 0)
    (hd : ∀ a b mm, ncols ≤ mm → d a b mm = 0)
    (a j : ℕ) :
    node_child_sum size m ncols L d a j =
      ∑ b in Finset.range size, ∑ i in Finset.range (j+1), L b i * d a b (j - i) := by
  unfold node_child_sum
  apply Finset.sum_congr rfl
  intro b _
  apply Finset.sum_subset
  · intro i hi
    simp only [Finset.mem_Icc] at hi
    simp only [Finset.mem_range]
    omega
  · intro i hi hni
    simp only [Finset.mem_range] at hi
    simp only [Finset.mem_Icc, not_and, not_le] at hni
    by_cases hlo : j + 1 - ncols ≤ i
    · have hmin : min j m < i := hni hlo
      have hmi : m < i := by omega
      rw [hL b i hmi, zero_mul]
    · have hcol : ncols ≤ j - i := by omega
      rw [hd a b (j - i) hcol, mul_zero]

/-- C6: at every internal node of the scalar tree DP,
`maxsubst[v] = max(mL + ncols_L - 1, mR + ncols_R - 1)`, and for every label
`a` and count `n`, the accumulated `L_v[a][n]` equals
`Σ_{j=0..n} left(a, j) · right(a, n-j)` where `left` and `right` range over
the full `i = 0 … j` and `k = 0 … n-j` (the code's clipped bounds are exact
because out-of-range terms are zero). -/
theorem C6_node_recurrence (size mL mR ncolsL ncolsR : ℕ)
    (Ll Lr : ℕ → ℕ → ℚ) (dL dR : ℕ → ℕ → ℕ → ℚ)
    (hLl : ∀ b i, mL < i → Ll b i = 0)
    (hdL : ∀ a b m, ncolsL ≤ m → dL a b m = 0)
    (hLr : ∀ c k, mR < k → Lr c k = 0)
    (hdR : ∀ a c m, ncolsR ≤ m → dR a c m = 0)
    (a n : ℕ) :
    node_maxsubst mL mR ncolsL ncolsR = max (mL + ncolsL - 1) (mR + ncolsR - 1) ∧
    node_L size mL mR ncolsL ncolsR Ll Lr dL dR a n =
      ∑ j in Finset.range (n+1),
        (∑ b in Finset.range size,
          ∑ i in Finset.range (j+1), Ll b i * dL a b (j - i)) *
        (∑ c in Finset.range size,
          ∑ k in Finset.range (n-j+1), Lr c k * dR a c (n-j-k)) := by
  refine ⟨rfl, ?_⟩
  unfold node_L
  apply Finset.sum_congr rfl
  intro j _
  rw [node_child_sum_unclipped size mL ncolsL Ll dL hLl hdL a j,
      node_child_sum_unclipped size mR ncolsR Lr dR hLr hdR a (n - j)]

/-- C6 witness: the node recurrence instantiated on one-column concrete
tables. -/
theorem C6_node_recurrence_witness :
    node_maxsubst 0 0 1 1 = max (0 + 1 - 1) (0 + 1 - 1) ∧
    node_L 1 0 0 1 1 wTab wTab wDist wDist 0 1 =
      ∑ j in Finset.range 2,
        (∑ b in Finset.range 1,
          ∑ i in Finset.range (j+1), wTab b i * wDist 0 b (j - i)) *
        (∑ c in Finset.range 1,
          ∑ k in Finset.range (1-j+1), wTab c k * wDist 0 c (1-j-k)) :=
  C6_node_recurrence 1 0 0 1 1 wTab wTab wDist wDist
    (fun b i hi => by simp [wTab, Nat.pos_iff_ne_zero.mp hi])
    (fun a b m hm => by simp [wDist, Nat.one_le_iff_ne_zero.mp hm])
    (fun c k hk => by simp [wTab, Nat.pos_iff_ne_zero.mp hk])
    (fun a c m hm => by simp [wDist, Nat.one_le_iff_ne_zero.mp hm])
    0 1

/-- The clipped child sums are nonnegative when the tables are. -/
theorem node_child_sum_nonneg (size m ncols : ℕ) (L : ℕ → ℕ → ℚ)
    (d : ℕ → ℕ → ℕ → ℚ)
    (hL : ∀ b i, 0 ≤ L b i) (hd : ∀ a b mm, 0 ≤ d a b mm) (a j : ℕ) :
    0 ≤ node_child_sum size m ncols L d a j :=
  Finset.sum_nonneg fun b _ =>
    Finset.sum_nonneg fun i _ => mul_nonneg (hL b i) (hd a b (j - i))

/-- The DP tables have nonnegative entries when every branch table does. -/
theorem subDP_nonneg (size : ℕ) :
    ∀ t : DPTree, treeNonneg t → ∀ a n, 0 ≤ (subDP size t).1 a n := by
  intro t
  induction t with
  | leaf obs =>
    intro _ a n
    cases obs with
    | none =>
      show 0 ≤ (if n = 0 then (1:ℚ) else 0)
      split_ifs <;> norm_num
    | some c =>
      show 0 ≤ (if n = 0 then (if a = c then (1:ℚ) else 0) else 0)
      split_ifs <;> norm_num
  | node l dL r dR ihl ihr =>
    intro ht a n
    obtain ⟨hdL, hdR, htl, htr⟩ := ht
    show 0 ≤ (if n ≤ node_maxsubst (subDP size l).2 (subDP size r).2 dL.ncols dR.ncols
      then node_L size (subDP size l).2 (subDP size r).2 dL.ncols dR.ncols
        (subDP size l).1 (subDP size r).1 dL.d dR.d a n
      else 0)
    split_ifs
    · apply Finset.sum_nonneg
      intro j _
      exact mul_nonneg
        (node_child_sum_nonneg _ _ _ _ _ (ihl htl) hdL a j)
        (node_child_sum_nonneg _ _ _ _ _ (ihr htr) hdR a (n - j))
    · exact le_refl 0

/-- Dividing a list elementwise divides its sum. -/
theorem list_sum_map_div (v : List ℚ) (s : ℚ) :
    (v.map (fun x => x / s)).sum = v.sum / s := by
  induction v with
  | nil => simp
  | cons x xs ih => simp [ih, add_div]

/-- Trimming the tail keeps a subset of the entries. -/
theorem trim_small_tail_subset (v : List ℚ) :
    ∀ x ∈ trim_small_tail v, x ∈ v := by
  intro x hx
  unfold trim_small_tail at hx
  rw [List.mem_reverse] at hx
  have hmem := (List.dropWhile_sublist _).mem hx
  rwa [List.mem_reverse] at hmem

/-- C8: the site-posterior vector returned by the scalar tree DP sums to 1
(within 1e-6; exactly, in exact arithmetic with the spec-modelled
normalizations) and all its retained entries are nonnegative, given
nonnegative background frequencies and branch tables and nonzero
normalization sums. -/
theorem C8_site_posterior (size : ℕ) (backgd : ℕ → ℚ) (t : DPTree)
    (hb : ∀ a, 0 ≤ backgd a) (ht : treeNonneg t)
    (h1 : 0 < (site_raw size backgd t).sum)
    (h2 : 0 < (trim_small_tail (normalize_probs (site_raw size backgd t))).sum) :
    |(sub_posterior_distrib_site size backgd t).sum - 1| < 1/1000000 ∧
    ∀ x ∈ sub_posterior_distrib_site size backgd t, 0 ≤ x := by
  constructor
  · unfold sub_posterior_distrib_site pv_normalize
    rw [list_sum_map_div, div_self (ne_of_gt h2)]
    norm_num
  · intro x hx
    unfold sub_posterior_distrib_site pv_normalize at hx
    rw [List.mem_map] at hx
    obtain ⟨y, hy, rfl⟩ := hx
    apply div_nonneg _ (le_of_lt h2)
    have hy2 := trim_small_tail_subset _ _ hy
    unfold normalize_probs at hy2
    rw [List.mem_map] at hy2
    obtain ⟨z, hz, rfl⟩ := hy2
    apply div_nonneg _ (le_of_lt h1)
    unfold site_raw at hz
    rw [List.mem_map] at hz
    obtain ⟨n, _, rfl⟩ := hz
    apply Finset.sum_nonneg
    intro a _
    exact mul_nonneg (subDP_nonneg size t ht a n) (hb a)

/-- C8 witness: the degenerate single-leaf tree with an observed character,
a point mass at 0 substitutions. -/
theorem C8_site_posterior_witness :
    |(sub_posterior_distrib_site 1 (fun _ => 1) (DPTree.leaf (some 0))).sum - 1|
        < 1/1000000 ∧
    ∀ x ∈ sub_posterior_distrib_site 1 (fun _ => 1) (DPTree.leaf (some 0)), 0 ≤ x := by
  have hraw : site_raw 1 (fun _ => 1) (DPTree.leaf (some 0)) = [1] := by
    unfold site_raw
    rw [show (subDP 1 (DPTree.leaf (some 0))).2 = 0 from rfl,
      show List.range 1 = [0] from rfl]
    simp only [List.map_cons, List.map_nil, Finset.sum_range_one]
    rw [show (subDP 1 (DPTree.leaf (some 0))).1 0 0 = 1 from rfl]
    norm_num
  have hnorm : normalize_probs [(1:ℚ)] = [1] := by
    unfold normalize_probs
    norm_num
  have htrim : trim_small_tail [(1:ℚ)] = [1] := by
    unfold trim_small_tail
    rw [show List.reverse [(1:ℚ)] = [1] from rfl, List.dropWhile_cons]
    rw [if_neg (by simp only [decide_eq_true_eq]; norm_num)]
    rfl
  exact C8_site_posterior 1 (fun _ => 1) (DPTree.leaf (some 0))
    (fun _ => by norm_num) trivial
    (by rw [hraw]; norm_num)
    (by rw [hraw, hnorm, htrim]; norm_num)

/-- `clt_size` is monotone in the length when means and standard deviations
are nonnegative. -/
theorem clt_size_mono (mean_l sd_l mean_r sd_r : ℝ)
    (hml : 0 ≤ mean_l) (hmr : 0 ≤ mean_r) (hsl : 0 ≤ sd_l) (hsr : 0 ≤ sd_r) :
    Monotone (clt_size mean_l sd_l mean_r sd_r) := by
  intro x y hxy
  unfold clt_size
  have hxc : ((x : ℕ) : ℝ) ≤ ((y : ℕ) : ℝ) := Nat.cast_le.mpr hxy
  have hsq : Real.sqrt x ≤ Real.sqrt y := Real.sqrt_le_sqrt hxc
  have hsx : (0:ℝ) ≤ Real.sqrt x := Real.sqrt_nonneg _
  have hx0 : (0:ℝ) ≤ ((x : ℕ) : ℝ) := Nat.cast_nonneg _
  have e1 : 6 * sd_l * Real.sqrt x ≤ 6 * sd_l * Real.sqrt y :=
    mul_le_mul_of_nonneg_left hsq (by linarith)
  have e2 : ((x : ℕ) : ℝ) * mean_l ≤ ((y : ℕ) : ℝ) * mean_l :=
    mul_le_mul_of_nonneg_right hxc hml
  have e3 : 6 * sd_r * Real.sqrt x ≤ 6 * sd_r * Real.sqrt y :=
    mul_le_mul_of_nonneg_left hsq (by linarith)
  have e4 : ((x : ℕ) : ℝ) * mean_r ≤ ((y : ℕ) : ℝ) * mean_r :=
    mul_le_mul_of_nonneg_right hxc hmr
  apply mul_le_mul (by linarith) (by linarith)
  · exact add_nonneg (mul_nonneg hx0 hmr)
      (mul_nonneg (by linarith) hsx)
  · exact add_nonneg (mul_nonneg (le_trans hx0 hxc) hml)
      (mul_nonneg (by linarith) (Real.sqrt_nonneg _))

open scoped Classical in
/-- The denotation of the do-while loop of `max_convolve_len`:
`Nat.find h - 1` is the largest `l` with `clt_size … l` strictly below the
budget, provided the bound is monotone and already strict at the initial
estimate. -/
theorem conv_loop_spec (msize : ℤ) (mean_l sd_l mean_r sd_r : ℝ)
    (hmono : Monotone (clt_size mean_l sd_l mean_r sd_r))
    (h : ∃ l : ℕ, conv_init msize mean_l sd_l mean_r sd_r < l ∧
      (msize : ℝ) ≤ clt_size mean_l sd_l mean_r sd_r l)
    (hinit : clt_size mean_l sd_l mean_r sd_r
      (conv_init msize mean_l sd_l mean_r sd_r) < (msize : ℝ)) :
    clt_size mean_l sd_l mean_r sd_r (Nat.find h - 1) < (msize : ℝ) ∧
    ∀ L : ℕ, clt_size mean_l sd_l mean_r sd_r L < (msize : ℝ) →
      L ≤ Nat.find h - 1 := by
  have hspec := Nat.find_spec h
  constructor
  · by_cases hc : conv_init msize mean_l sd_l mean_r sd_r < Nat.find h - 1
    · have hlt : Nat.find h - 1 < Nat.find h := by omega
      have hmin := Nat.find_min h hlt
      push_neg at hmin
      exact hmin hc
    · have heq : Nat.find h - 1 = conv_init msize mean_l sd_l mean_r sd_r := by
        omega
      rw [heq]
      exact hinit
  · intro L hL
    by_contra hcon
    push_neg at hcon
    have hKL : Nat.find h ≤ L := by omega
    have hm := hmono hKL
    have hK := hspec.2
    linarith

/-- C9 (amended): the value returned by `max_convolve_len` is the largest
integer `L` such that `(L·μx + 6·σx·√L) · (L·μy + 6·σy·√L)` is STRICTLY
below `max_convolve_size` — the loop runs `while (maxsize <
max_convolve_size)`, so a length whose CLT bound equals the budget exactly
is excluded — provided the bound at the loop's initial estimate is itself
strictly below the budget. -/
theorem C9_max_conv_len_amended (msize : ℤ) (mean_l sd_l mean_r sd_r : ℝ)
    (hml : 0 < mean_l) (hmr : 0 < mean_r) (hsl : 0 < sd_l) (hsr : 0 < sd_r)
    (hsz : 0 < msize)
    (hinit : clt_size mean_l sd_l mean_r sd_r
      (conv_init msize mean_l sd_l mean_r sd_r) < (msize : ℝ)) :
    clt_size mean_l sd_l mean_r sd_r
        (max_convolve_len msize mean_l sd_l mean_r sd_r hml hmr hsl.le hsr.le hsz)
      < (msize : ℝ) ∧
    ∀ L : ℕ, clt_size mean_l sd_l mean_r sd_r L < (msize : ℝ) →
      L ≤ max_convolve_len msize mean_l sd_l mean_r sd_r hml hmr hsl.le hsr.le hsz := by
  have hmono : Monotone (clt_size mean_l sd_l mean_r sd_r) :=
    clt_size_mono _ _ _ _ hml.le hmr.le hsl.le hsr.le
  unfold max_convolve_len
  exact conv_loop_spec msize mean_l sd_l mean_r sd_r hmono _ hinit

open scoped Classical in
/-- C9 counterexample: at budget 256 with all means and deviations 1, the
CLT bound at length 4 equals the budget exactly (`√4 = 2`, `(4+12)² = 256`),
so 4 satisfies the claim's non-strict condition `≤ max_convolve_size`, but
the source's loop exits once `maxsize < max_convolve_size` fails and
returns 3. -/
theorem C9_strict_counterexample :
    clt_size 1 1 1 1 4 ≤ (((256:ℤ)) : ℝ) ∧ mcl256 = 3 := by
  have hs4 : Real.sqrt (((4:ℕ)) : ℝ) = 2 := by
    rw [show (((4:ℕ)) : ℝ) = (2:ℝ)^2 by norm_num, Real.sqrt_sq (by norm_num)]
  have hg4 : clt_size 1 1 1 1 4 = 256 := by
    unfold clt_size
    rw [hs4]
    norm_num
  have hs3 : Real.sqrt (3:ℝ) < 13/6 := by
    rw [Real.sqrt_lt' (by norm_num)]
    norm_num
  have hg3 : clt_size 1 1 1 1 3 < 256 := by
    unfold clt_size
    have h0 : (0:ℝ) ≤ Real.sqrt (3:ℝ) := Real.sqrt_nonneg _
    have hmul3 : Real.sqrt (3:ℝ) * Real.sqrt (3:ℝ) = 3 :=
      Real.mul_self_sqrt (by norm_num)
    push_cast
    nlinarith [hs3, h0, hmul3]
  have hinit : conv_init 256 1 1 1 1 = 2 := by
    unfold conv_init
    rw [show (((256:ℤ)) : ℝ) / ((1 + 6*1) * (1 + 6*1)) = (16/7:ℝ)^2 by norm_num,
      Real.sqrt_sq (by norm_num)]
    rw [Nat.floor_eq_iff (by norm_num)]
    norm_num
  refine ⟨by rw [hg4]; norm_num, ?_⟩
  have key : ∀ (h : ∃ l : ℕ, conv_init 256 1 1 1 1 < l ∧
      (((256:ℤ)) : ℝ) ≤ clt_size 1 1 1 1 l), Nat.find h - 1 = 3 := by
    intro h
    have hfind : Nat.find h = 4 := by
      rw [Nat.find_eq_iff]
      refine ⟨⟨by rw [hinit]; norm_num, by rw [hg4]; norm_num⟩, ?_⟩
      intro m hm
      rintro ⟨hm1, hm2⟩
      rw [hinit] at hm1
      have hm3 : m = 3 := by omega
      subst hm3
      push_cast at hm2
      linarith [hg3]
    omega
  unfold mcl256 max_convolve_len
  exact key _

/-- C9 witness: at budget 300 with all means and deviations 1 the initial
estimate is 2 with bound below 300, and the returned length is the largest
with CLT bound strictly below 300. -/
theorem C9_amended_witness :
    clt_size 1 1 1 1 mcl300 < (((300:ℤ)) : ℝ) ∧
    ∀ L : ℕ, clt_size 1 1 1 1 L < (((300:ℤ)) : ℝ) → L ≤ mcl300 := by
  have hinit2 : conv_init 300 1 1 1 1 = 2 := by
    unfold conv_init
    have h1 : (2:ℝ) ≤ Real.sqrt ((300:ℝ) / ((1 + 6*1) * (1 + 6*1))) := by
      rw [Real.le_sqrt (by norm_num) (by positivity)]
      norm_num
    have h2 : Real.sqrt ((300:ℝ) / ((1 + 6*1) * (1 + 6*1))) < 3 := by
      rw [Real.sqrt_lt' (by norm_num)]
      norm_num
    rw [Nat.floor_eq_iff (Real.sqrt_nonneg _)]
    push_cast
    constructor
    · exact h1
    · linarith [h2]
  have hs2 : Real.sqrt (2:ℝ) < 3/2 := by
    rw [Real.sqrt_lt' (by norm_num)]
    norm_num
  have hg2 : clt_size 1 1 1 1 2 < (((300:ℤ)) : ℝ) := by
    unfold clt_size
    have h0 : (0:ℝ) ≤ Real.sqrt (2:ℝ) := Real.sqrt_nonneg _
    have hmul2 : Real.sqrt (2:ℝ) * Real.sqrt (2:ℝ) = 2 :=
      Real.mul_self_sqrt (by norm_num)
    push_cast
    nlinarith [hs2, h0, hmul2]
  exact C9_max_conv_len_amended 300 1 1 1 1 (by norm_num) (by norm_num)
    (by norm_num) (by norm_num) (by norm_num) (by rw [hinit2]; exact hg2)

/-- C5: in the per-feature body of the bivariate orchestrator, a feature
whose length equals `max_conv_len` takes the explicit joint-convolution
path — the joint prior is `pm_convolve_many_fast` over the selected powers
and `cond_p_approx = false` — while a feature of length `max_conv_len + 1`
or more skips the joint convolution (`prior` stays NULL,
`cond_p_approx = true`), computes its prior marginals by 1-D convolution of
the per-site marginals, computes its conditional p-values by the
independence formulas, and still computes all four marginal p-values from
those marginals. -/
theorem C5_joint_boundary (env : JointEnv) (fstart fend : ℕ) :
    (fend - fstart + 1 = env.max_conv_len →
      ∃ s, sub_p_value_joint_feature env fstart fend = some s ∧
        s.cond_p_approx = false ∧
        s.prior_joint = some (env.ops.pm_convolve_many_fast
          (gatherPows env.pow_p (fend - fstart + 1)).1
          (joint_bounds env (fend - fstart + 1)).1
          (joint_bounds env (fend - fstart + 1)).2)) ∧
    (env.max_conv_len < fend - fstart + 1 →
      ∃ s, sub_p_value_joint_feature env fstart fend = some s ∧
        s.cond_p_approx = true ∧
        s.prior_joint = none ∧
        s.p_cons_left = env.ops.pv_p_value
          (env.ops.pv_convolve env.prior_site_marg_left (fend - fstart + 1))
          s.post_max_left PSide.lower ∧
        s.p_anti_cons_left = env.ops.pv_p_value
          (env.ops.pv_convolve env.prior_site_marg_left (fend - fstart + 1))
          s.post_min_left PSide.upper ∧
        s.p_cons_right = env.ops.pv_p_value
          (env.ops.pv_convolve env.prior_site_marg_right (fend - fstart + 1))
          s.post_max_right PSide.lower ∧
        s.p_anti_cons_right = env.ops.pv_p_value
          (env.ops.pv_convolve env.prior_site_marg_right (fend - fstart + 1))
          s.post_min_right PSide.upper ∧
        s.cond_p_cons_left = env.ops.pv_p_value
          (env.ops.pm_x_given_tot_indep s.post_min_tot
            (env.ops.pv_convolve env.prior_site_marg_left (fend - fstart + 1))
            (env.ops.pv_convolve env.prior_site_marg_right (fend - fstart + 1)))
          s.post_max_left PSide.lower ∧
        s.cond_p_anti_cons_left = env.ops.pv_p_value
          (env.ops.pm_x_given_tot_indep s.post_max_tot
            (env.ops.pv_convolve env.prior_site_marg_left (fend - fstart + 1))
            (env.ops.pv_convolve env.prior_site_marg_right (fend - fstart + 1)))
          s.post_min_left PSide.upper ∧
        s.cond_p_cons_right = env.ops.pv_p_value
          (env.ops.pm_y_given_tot_indep s.post_min_tot
            (env.ops.pv_convolve env.prior_site_marg_left (fend - fstart + 1))
            (env.ops.pv_convolve env.prior_site_marg_right (fend - fstart + 1)))
          s.post_max_right PSide.lower ∧
        s.cond_p_anti_cons_right = env.ops.pv_p_value
          (env.ops.pm_y_given_tot_indep s.post_max_tot
            (env.ops.pv_convolve env.prior_site_marg_left (fend - fstart + 1))
            (env.ops.pv_convolve env.prior_site_marg_right (fend - fstart + 1)))
          s.post_min_right PSide.upper) := by
  constructor
  · intro hlen
    have hbr : joint_prior_branch env (fend - fstart + 1) =
        some (some (env.ops.pm_convolve_many_fast
            (gatherPows env.pow_p (fend - fstart + 1)).1
            (joint_bounds env (fend - fstart + 1)).1
            (joint_bounds env (fend - fstart + 1)).2),
          env.ops.pm_marg_x (env.ops.pm_convolve_many_fast
            (gatherPows env.pow_p (fend - fstart + 1)).1
            (joint_bounds env (fend - fstart + 1)).1
            (joint_bounds env (fend - fstart + 1)).2),
          env.ops.pm_marg_y (env.ops.pm_convolve_many_fast
            (gatherPows env.pow_p (fend - fstart + 1)).1
            (joint_bounds env (fend - fstart + 1)).1
            (joint_bounds env (fend - fstart + 1)).2)) := by
      unfold joint_prior_branch
      rw [if_pos (le_of_eq hlen), if_pos (gatherPows_checksum _ _)]
    simp only [sub_p_value_joint_feature]
    rw [hbr]
    exact ⟨_, rfl, rfl, rfl⟩
  · intro hlen
    have hbr : joint_prior_branch env (fend - fstart + 1) =
        some (none,
          env.ops.pv_convolve env.prior_site_marg_left (fend - fstart + 1),
          env.ops.pv_convolve env.prior_site_marg_right (fend - fstart + 1)) := by
      unfold joint_prior_branch
      rw [if_neg (not_le.mpr hlen)]
    simp only [sub_p_value_joint_feature]
    rw [hbr]
    exact ⟨_, rfl, rfl, rfl, rfl, rfl, rfl, rfl, rfl, rfl, rfl, rfl⟩

/-- C5 witness: with the concrete stub environment (`max_conv_len = 3`) the
joint path is taken at feature `[1, 3]` (length 3) and skipped at `[1, 4]`
(length 4). -/
theorem C5_joint_boundary_witness :
    (∃ s, sub_p_value_joint_feature trivEnv 1 3 = some s ∧
      s.cond_p_approx = false) ∧
    (∃ s, sub_p_value_joint_feature trivEnv 1 4 = some s ∧
      s.cond_p_approx = true ∧ s.prior_joint = none) := by
  constructor
  · obtain ⟨s, h1, h2, _⟩ := (C5_joint_boundary trivEnv 1 3).1 rfl
    exact ⟨s, h1, h2⟩
  · obtain ⟨s, h1, h2, h3, _⟩ := (C5_joint_boundary trivEnv 1 4).2 (by norm_num [trivEnv])
    exact ⟨s, h1, h2, h3⟩

end Phast
